import Mathlib

/-!
Verification development for the jsite-parse library.

The repository ships two revisions of the parse module:
* `src/parse.ts` (promise style): functions embedded here carry a `P` suffix
  (`guessP`, `guessTypeP`, `queryP`, `requestP`).
* the async revision (the one the repository's own test suite, README and
  `interfaces/parse.ts` agree with; it imports `./modules/csv-parse` and
  `./modules/formidable`): functions embedded here keep their source names
  (`json`, `xml`, `csv`, `query`, `url`, `contentType`, `guess`, `guessType`,
  `request`).

External decoders (`JSON.parse`/`JSON.stringify`, `xml2js`, `csv-parse`, `qs`,
`url.parse`, `formidable`) are black-box collaborators of the library; they are
modelled as an explicit environment `Env` of abstract functions, and theorems
take the documented facts about them as hypotheses, discharged by concrete
instantiations in the witnesses.

JavaScript values are modelled by the inductive `JVal`; machine floats do not
matter to any claim, so numbers are carried as integers.
-/

namespace Jsite

/-- A JavaScript runtime value, as far as the library inspects one:
`undefined`, `null`, booleans, numbers, strings, arrays and plain objects
(an object is its ordered field list). -/
inductive JVal where
  | undefined : JVal
  | jnull : JVal
  | bool (b : Bool) : JVal
  | num (n : Int) : JVal
  | str (s : String) : JVal
  | arr (items : List JVal) : JVal
  | obj (fields : List (String × JVal)) : JVal

/-- `typeof v === "string"`. -/
def JVal.isStr : JVal → Bool
  | .str _ => true
  | _ => false

/-- `Array.isArray(v)`. -/
def JVal.isArr : JVal → Bool
  | .arr _ => true
  | _ => false

/-- Whether `v` is a plain object. -/
def JVal.isObj : JVal → Bool
  | .obj _ => true
  | _ => false

/-- JavaScript truthiness of a value (`if (v)`); the empty string, `0`,
`null`, `undefined` and `false` are falsy. -/
def truthy : JVal → Bool
  | .undefined => false
  | .jnull => false
  | .bool b => b
  | .num n => n ≠ 0
  | .str s => s ≠ ""
  | .arr _ => true
  | .obj _ => true

/-! ## Character and list-of-characters helpers

The string algorithms of the library (`contentType`, the guard checks) are
embedded over `List Char`, the data of a Lean `String`.  `String.prototype.
toLowerCase` is modelled on the ASCII range, which is all the library's own
data (content-type tags) exercises. -/

/-- ASCII lowercasing of one character, the fragment of
`String.prototype.toLowerCase` the library relies on. -/
def lowerChar (c : Char) : Char :=
  if 65 ≤ c.toNat ∧ c.toNat ≤ 90 then Char.ofNat (c.toNat + 32) else c

/-- `s.toLowerCase()` on the ASCII range. -/
def lowerStr (s : String) : String :=
  String.mk (s.data.map lowerChar)

/-- `l.any (· == c)`: the character occurs in the list (`s.includes(c)` for a
one-character needle). -/
def chContains (l : List Char) (c : Char) : Bool :=
  l.any (fun a => a == c)

/-- Whether the list starts with the character (`s.startsWith(c)`). -/
def startsWithCh (l : List Char) (c : Char) : Bool :=
  match l with
  | [] => false
  | x :: _ => x == c

/-- `String.prototype.split` with a one-character separator: every occurrence
splits, empty segments are kept, `"".split(c) = [""]`. -/
def jsSplit (c : Char) : List Char → List (List Char)
  | [] => [[]]
  | x :: xs =>
    if x == c then [] :: jsSplit c xs
    else
      match jsSplit c xs with
      | [] => [[x]]
      | s :: ss => (x :: s) :: ss

/-- The whitespace class trimmed by `String.prototype.trim` (the ASCII part
plus the no-break space). -/
def jsWs (c : Char) : Bool :=
  c.toNat = 9 || c.toNat = 10 || c.toNat = 11 || c.toNat = 12 ||
  c.toNat = 13 || c.toNat = 32 || c.toNat = 160

/-- `s.trim()`: drop the whitespace from both ends. -/
def jsTrim (l : List Char) : List Char :=
  (((l.dropWhile jsWs).reverse.dropWhile jsWs)).reverse

/-! ## The Content-Type Normalizer (`contentType`, identical in both
revisions of `parse.ts`) -/

/-- `if (s.includes(c)) s = s.split(c)[1]`: the source's conditional step of
taking the second split segment. -/
def sepPart (c : Char) (l : List Char) : List Char :=
  if chContains l c then (jsSplit c l).getD 1 [] else l

/-- Embedding of `contentType` on the character list:
`split(";")[0].toLowerCase()`, then `split("/")[1]` when a slash occurs, then
`split("+")[1]` when a plus occurs, then `trim()`. -/
def contentTypeL (l : List Char) : List Char :=
  jsTrim (sepPart '+' (sepPart '/' (((jsSplit ';' l).headD []).map lowerChar)))

/-- `contentType(content_type)` of `parse.ts` (both revisions): normalize a
MIME string to a short tag, `"unknown"` when the result is empty.  A missing
or empty argument behaves as `""` (`content_type || ""`). -/
def contentType (s : String) : String :=
  if (contentTypeL s.data).isEmpty then "unknown" else String.mk (contentTypeL s.data)

/-- The claim's conditional step instead keeps the part after the LAST
occurrence of the separator. -/
def sepLast (c : Char) (l : List Char) : List Char :=
  if chContains l c then (jsSplit c l).getLastD [] else l

/-- The reference algorithm exactly as the claim words it (`contentTypeSpecLast`
is written from the claim's sentence, not from the source): after splitting on
the separators it keeps the part after the LAST `/` and the part after the
LAST `+`. -/
def contentTypeSpecLast (s : String) : String :=
  let t := jsTrim (sepLast '+' (sepLast '/' (((jsSplit ';' s.data).headD []).map lowerChar)))
  if t.isEmpty then "unknown" else String.mk t

/-- The segment after the FIRST occurrence of the separator, up to the next
occurrence — the amended claim's wording, phrased with `dropWhile`/`takeWhile`
rather than the source's `split` indexing. -/
def afterFirst (c : Char) (l : List Char) : List Char :=
  ((l.dropWhile (fun a => !(a == c))).drop 1).takeWhile (fun a => !(a == c))

/-- The amended claim's conditional step. -/
def sepFirst (c : Char) (l : List Char) : List Char :=
  if chContains l c then afterFirst c l else l

/-- Amended normalizer (written from the amended claim's words): the text
before the first `;`, lowercased; if it holds a `/`, the segment after the
first `/`; if that holds a `+`, the segment after the first `+`; trimmed;
`"unknown"` when empty. -/
def contentTypeAmended (s : String) : String :=
  let t := jsTrim (sepFirst '+' (sepFirst '/'
    ((s.data.takeWhile (fun a => !(a == ';'))).map lowerChar)))
  if t.isEmpty then "unknown" else String.mk t

/-! ## Transport requests and the environment of external decoders -/

/-- The slice of `http.IncomingMessage` the library reads: whether the value
is such a message at all (`instanceof IncomingMessage`), the HTTP method, the
request URL (a string on every server-side message), the `content-type`
header when present, and the fully buffered body.  Stream accumulation
(`request.on("data")` / `"end"`) is modelled by `body` holding the whole
stream. -/
structure Req where
  isMessage : Bool
  method : Option String
  reqUrl : String
  contentTypeHdr : Option String
  body : String

/-- The external decoders the library wraps, as abstract functions: the JSON
codec, the XML decoder (`xml2js.parseStringPromise`), the CSV decoder
(`csv-parse`), the query-string decoder (`qs.parse`, total — it returns an
object for every string), the URL decoder (`url.parse(s, true)`, total on the
library's inputs) and the multipart decoder (`formidable`; `formDec` is the
whole partial result object of `modules/formidable.parseForm`, `formParseP`
the `(fields, files)` pair of the promise revision's inline use). -/
structure Env where
  jsonParse : String → Except String JVal
  jsonStringify : JVal → Option String
  xmlDec : String → Except String JVal
  csvDec : String → Except String JVal
  qsDec : String → JVal
  urlDec : String → JVal
  formDec : Req → Except String JVal
  formParseP : Req → Except String (JVal × List (String × JVal))

/-! ## The format parsers (wrapper logic identical in both revisions, except
`query`, whose null shortcut only the async revision has) -/

/-- `json(json_data)`: a non-string is serialized first
(`JSON.stringify`; `undefined` serializes to no string at all, and
`JSON.parse` then coerces its argument to the text `"undefined"`), then the
JSON decoder runs; its failure is the parser's failure. -/
def json (env : Env) (v : JVal) : Except String JVal :=
  match v with
  | .str s => env.jsonParse s
  | x =>
    match env.jsonStringify x with
    | some s => env.jsonParse s
    | none => env.jsonParse "undefined"

/-- `xml(xml_data)`: non-strings pass through unchanged; a string is decoded,
and a falsy decode result is a failure even when the decoder did not throw. -/
def xml (env : Env) (v : JVal) : Except String JVal :=
  match v with
  | .str s =>
    match env.xmlDec s with
    | .error e => .error e
    | .ok d => if truthy d then .ok d else .error "Unable to parse XML"
  | x => .ok x

/-- `item => (Array.isArray(item) ? item : [item])`: normalize a row. -/
def wrapRow (v : JVal) : JVal :=
  match v with
  | .arr _ => v
  | x => .arr [x]

/-- Whether a value is an array whose elements are all arrays (the shape of
the CSV decoder's output, a sequence of rows). -/
def rowArray (v : JVal) : Bool :=
  match v with
  | .arr rows => rows.all (fun r => r.isArr)
  | _ => false

/-- `csv(csv_data, is_strict)`: an array maps each element to a row; a
non-string fails; in strict mode a string with neither comma nor newline is
refused before the decoder runs; otherwise the CSV decoder's result is
returned as is. -/
def csv (env : Env) (v : JVal) (is_strict : Bool) : Except String JVal :=
  match v with
  | .arr items => .ok (.arr (items.map wrapRow))
  | .str s =>
    if is_strict && !(chContains s.data ',') && !(chContains s.data '\n') then
      .error "Refusing to parse CSV, single-word data"
    else env.csvDec s
  | _ => .error "Unable to parse CSV, data isn't a string"

/-- The string body shared by both revisions of `query`: reject on `#`,
reject a strict leading `/`, strip one leading `?`, then decode. -/
def queryStr (env : Env) (s : String) (is_strict : Bool) : Except String JVal :=
  if chContains s.data '#' then .error "Refusing to parse query, contains '#'"
  else if is_strict && startsWithCh s.data '/' then
    .error "Refusing to parse query, starts with '/'"
  else
    let s2 := if startsWithCh s.data '?' then String.mk (s.data.drop 1) else s
    .ok (env.qsDec s2)

/-- `query(query_data, is_strict)` of the async revision: `null` with the
strict flag off resolves to `{}` (the issue-1 shortcut), any other non-string
passes through unchanged, strings go through `queryStr`. -/
def query (env : Env) (v : JVal) (is_strict : Bool) : Except String JVal :=
  match v, is_strict with
  | .jnull, false => .ok (.obj [])
  | .str s, st => queryStr env s st
  | x, _ => .ok x

/-- The call `query(query_data)` with the strict flag left to its default
(`is_strict = false` in the source). -/
def queryNoFlag (env : Env) (v : JVal) : Except String JVal :=
  query env v false

/-- `query` of the promise revision (`src/parse.ts`): no null shortcut — any
non-string, `null` included, passes through unchanged. -/
def queryP (env : Env) (v : JVal) (is_strict : Bool) : Except String JVal :=
  match v with
  | .str s => queryStr env s is_strict
  | x => .ok x

/-- `url(url, is_strict)` (both revisions): non-strings pass through; an
empty string defaults to `"/"`; strict mode refuses a string not starting
with `/`; otherwise the URL decoder runs with query parsing on. -/
def url (env : Env) (v : JVal) (is_strict : Bool) : Except String JVal :=
  match v with
  | .str s =>
    let s2 := if s = "" then "/" else s
    if is_strict && !(startsWithCh s2.data '/') then
      .error "Refusing to parse URL, doesn't start with '/'"
    else .ok (env.urlDec s2)
  | x => .ok x

/-! ## The guess dispatcher -/

/-- The default candidate order `DEFAULT_GUESS_ORDER`. -/
def DEFAULT_GUESS_ORDER : List String := ["json", "xml", "csv", "query", "url"]

/-- The own property names of the module's `exports` object (what
`Object.prototype.hasOwnProperty.call(exports, t)` sees): every exported
function of `parse.ts`. -/
def expKeys : List String :=
  ["json", "xml", "csv", "query", "url", "contentType", "guess", "guessType", "request"]

/-- `hasOwnProperty(exports, t)`. -/
def expOwn (t : String) : Bool :=
  expKeys.contains t

/-- `exports[t](data, true)`: dispatch on an export name with the raw string
and the strict flag.  `json` and `xml` take no strict flag; the non-parser
exports behave as calling them with these arguments does: `guess`/`guessType`
get `true` as their order and throw "Order isn't an array", `request` rejects
a string (`instanceof` fails), `contentType` returns a plain string, which an
`await` passes through as a successful value.  (Only the five lowercase
parser tags are reachable through the dispatcher, since normalized tags are
lowercase.) -/
def tryTag (env : Env) (t : String) (data : String) : Except String JVal :=
  match t with
  | "json" => json env (.str data)
  | "xml" => xml env (.str data)
  | "csv" => csv env (.str data) true
  | "query" => query env (.str data) true
  | "url" => url env (.str data) true
  | "guess" => .error "Order isn't an array"
  | "guessType" => .error "Order isn't an array"
  | "request" => .error "Unable to parse request"
  | "contentType" => .ok (.str (contentType data))
  | _ => .error "not a function"

/-- The async revision's `guess` recursion over a candidate list, with a fuel
argument for structural termination.  Each call maps the list through
`contentType`, filters to `exports` members, fails on an empty result, tries
the head strictly and recurses on the filtered tail (`order.slice(1)` after
the source reassigned `order` to the filtered list).  `guess` passes
`order.length` as fuel, which the recursion never exhausts before the list
does (the filtered tail is strictly shorter than the list the fuel came
from). -/
def guessGo (env : Env) (data : String) : Nat → List String → Except String JVal
  | 0, _ => .error "Unable to parse"
  | fuel + 1, order =>
    match (order.map contentType).filter expOwn with
    | [] => .error "Unable to parse"
    | t :: rest =>
      match tryTag env t data with
      | .ok r => .ok r
      | .error _ => guessGo env data fuel rest

/-- `guess(data, order)` of the async revision: non-strings return
unchanged, the empty string returns `{}` at once, otherwise the candidate
recursion runs.  The order argument is taken already coerced to a list (a
single tag string arrives as a one-element list). -/
def guess (env : Env) (v : JVal) (order : List String) : Except String JVal :=
  match v with
  | .str data =>
    if data = "" then .ok (.obj [])
    else guessGo env data order.length order
  | x => .ok x

/-- The async revision's `guessType` recursion: as `guessGo`, but success
yields the winning normalized tag, not the parsed value. -/
def guessTypeGo (env : Env) (data : String) : Nat → List String → Except String JVal
  | 0, _ => .error "Unable to parse"
  | fuel + 1, order =>
    match (order.map contentType).filter expOwn with
    | [] => .error "Unable to parse"
    | t :: rest =>
      match tryTag env t data with
      | .ok _ => .ok (.str t)
      | .error _ => guessTypeGo env data fuel rest

/-- `guessType(data, order)` of the async revision: a non-string returns the
data itself, the empty string returns `{}` (both despite the declared
`Promise<string>` type), otherwise the candidate recursion runs — and, like
`guess`, it throws "Unable to parse" on exhaustion. -/
def guessType (env : Env) (v : JVal) (order : List String) : Except String JVal :=
  match v with
  | .str data =>
    if data = "" then .ok (.obj [])
    else guessTypeGo env data order.length order
  | x => .ok x

/-- The promise revision's `guess` loop.  Its `.filter` keeps entries already
equal to a default-order tag, `.some` then stops at the first kept entry
whose normalized tag is an `exports` member (the fused predicate below) and
tries it; on failure the recursion drops the first element of the ORIGINAL
list (`order.slice(1)`), not of the filtered one. -/
def guessPGo (env : Env) (data : String) : List String → Except String JVal
  | [] => .error "Unable to parse"
  | o :: os =>
    match (o :: os).filter
        (fun t => DEFAULT_GUESS_ORDER.contains t && expOwn (contentType t)) with
    | [] => .error "Unable to parse"
    | t :: _ =>
      match tryTag env (contentType t) data with
      | .ok r => .ok r
      | .error _ => guessPGo env data os

/-- `guess(data, order)` of the promise revision (`src/parse.ts`). -/
def guessP (env : Env) (v : JVal) (order : List String) : Except String JVal :=
  match v with
  | .str data =>
    if data = "" then .ok (.obj [])
    else guessPGo env data order
  | x => .ok x

/-- The promise revision's `guessType` loop: same traversal, but success
resolves the normalized tag and EXHAUSTION RESOLVES `"unknown"` instead of
rejecting. -/
def guessTypePGo (env : Env) (data : String) : List String → Except String JVal
  | [] => .ok (.str "unknown")
  | o :: os =>
    match (o :: os).filter
        (fun t => DEFAULT_GUESS_ORDER.contains t && expOwn (contentType t)) with
    | [] => .ok (.str "unknown")
    | t :: _ =>
      match tryTag env (contentType t) data with
      | .ok _ => .ok (.str (contentType t))
      | .error _ => guessTypePGo env data os

/-- `guessType(data, order)` of the promise revision: empty or non-string
data rejects ("bad data"), otherwise the loop runs, resolving `"unknown"` on
exhaustion. -/
def guessTypeP (env : Env) (v : JVal) (order : List String) : Except String JVal :=
  match v with
  | .str data =>
    if data = "" then .error "Unable to guess type (bad data)"
    else guessTypePGo env data order
  | _ => .error "Unable to guess type (bad data)"

/-- The spec's words for the dispatcher (step 2-4 of §4.3): try each
candidate of the (already normalized and filtered) list in order with the
strict flag, resolve with the first success, fail with "Unable to parse"
when the list runs out.  Written from the spec to be compared with the
source's `guess`. -/
def specFirstSuccess (env : Env) (data : String) : List String → Except String JVal
  | [] => .error "Unable to parse"
  | t :: ts =>
    match tryTag env t data with
    | .ok r => .ok r
    | .error _ => specFirstSuccess env data ts

/-- The spec's words for `guessType`'s traversal: as `specFirstSuccess`, but
the first success resolves that candidate's tag. -/
def specFirstTag (env : Env) (data : String) : List String → Except String JVal
  | [] => .error "Unable to parse"
  | t :: ts =>
    match tryTag env t data with
    | .ok _ => .ok (.str t)
    | .error _ => specFirstTag env data ts

/-! ## The request adapters -/

/-- Property read `v[k]` on a parsed-URL object: the field's value, or
`undefined` when the key is absent (the library only reads `search` off the
URL decoder's object result). -/
def getField (v : JVal) (k : String) : JVal :=
  match v with
  | .obj fs =>
    match fs.find? (fun p => p.1 == k) with
    | some p => p.2
    | none => .undefined
  | _ => .undefined

/-- Set one key on an ordered field list, JavaScript style: an existing key
keeps its position and takes the new value, a new key is appended. -/
def setK (l : List (String × JVal)) (k : String) (v : JVal) : List (String × JVal) :=
  if l.any (fun p => p.1 == k) then
    l.map (fun p => if p.1 == k then (k, v) else p)
  else l ++ [(k, v)]

/-- `Object.assign(target, source)` on field lists: each source key in order
is set on the target. -/
def objAssign (target source : List (String × JVal)) : List (String × JVal) :=
  source.foldl (fun acc p => setK acc p.1 p.2) target

/-- `Object.assign(target, source)` where the source is any value: an object
spreads its fields, other sources the library ever passes (none, in fact,
beyond objects) leave the target as is. -/
def jObjAssign (target source : JVal) : JVal :=
  match target, source with
  | .obj ft, .obj fs => .obj (objAssign ft fs)
  | .obj ft, _ => .obj ft
  | t, _ => t

/-- `(request.method || "get")`: the method string, with `undefined` and the
empty string (both falsy) replaced by `"get"`. -/
def jsMethod (m : Option String) : String :=
  match m with
  | some s => if s = "" then "get" else s
  | none => "get"

/-- Substring check `h.includes(needle)` via a prefix scan. -/
def isPrefOf : List Char → List Char → Bool
  | [], _ => true
  | _ :: _, [] => false
  | a :: as, b :: bs => a == b && isPrefOf as bs

/-- `hay.includes(needle)` for strings. -/
def containsSub (hay needle : String) : Bool :=
  go hay.data
where
  go : List Char → Bool
    | [] => isPrefOf needle.data []
    | l@(_ :: tl) => isPrefOf needle.data l || go tl

/-- Whether the request's `content-type` header marks a multipart body. -/
def isMultipart (r : Req) : Bool :=
  match r.contentTypeHdr with
  | some h => containsSub h "multipart/form-data"
  | none => false

/-- The order argument `request.headers["content-type"]` hands to `guess`: a
present header string is coerced to a one-element list, an absent one leaves
the default order. -/
def headerOrder (r : Req) : List String :=
  match r.contentTypeHdr with
  | some h => [h]
  | none => DEFAULT_GUESS_ORDER

/-- `request(request)` of the async revision: reject a non-message; parse the
URL (non-strict), then its `search` component with the query parser; branch
on multipart; otherwise guess the buffered body seeded with the
`content-type` header, keyed under the lowercased method; finally
`Object.assign(data_parsed, get)` — note the parsed query OBJECT itself is
the assign source, so its parameters land at top level. -/
def request (env : Env) (r : Req) : Except String JVal :=
  if !r.isMessage then .error "Unable to parse request"
  else
    let method := lowerStr (jsMethod r.method)
    match url env (.str r.reqUrl) false with
    | .error e => .error e
    | .ok request_url =>
      match query env (getField request_url "search") false with
      | .error e => .error e
      | .ok get =>
        match
          (if isMultipart r then env.formDec r
           else
             match guess env (.str r.body) (headerOrder r) with
             | .error e => .error e
             | .ok d => .ok (JVal.obj (setK [] method d))) with
        | .error e => .error e
        | .ok data_parsed => .ok (jObjAssign data_parsed get)

/-- `request(request)` of the promise revision (`src/parse.ts`): same URL and
query steps, but the result is the object literal `{[method]: body, get}`
(plus `files` when the multipart decoder produced any), so the query
parameters stay under the `get` key. -/
def requestP (env : Env) (r : Req) : Except String JVal :=
  if !r.isMessage then .error "Unable to parse request"
  else
    match url env (.str r.reqUrl) false with
    | .error e => .error e
    | .ok request_url =>
      match queryP env (getField request_url "search") false with
      | .error e => .error e
      | .ok get =>
        let method := lowerStr (jsMethod r.method)
        if isMultipart r then
          match env.formParseP r with
          | .error e => .error e
          | .ok (fields, files) =>
            .ok (jObjAssign (JVal.obj (setK (setK [] method fields) "get" get))
              (if files.isEmpty then .obj [] else .obj [("files", .obj files)]))
        else
          match guessP env (.str r.body) (headerOrder r) with
          | .error e => .error e
          | .ok d => .ok (JVal.obj (setK (setK [] method d) "get" get))

/-! ## Concrete environments

The claims' theorems hold for every environment satisfying the documented
facts about the external decoders; the witnesses instantiate these concrete
ones.  `miniJsonParse` implements the scalar fragment of `JSON.parse` (no
composites, escapes or fractions — every theorem only evaluates it on scalar
literals, where it agrees with the builtin), `miniJsonStringify` likewise the
scalar fragment of `JSON.stringify` (in particular `undefined` serializes to
no string). -/

/-- JSON whitespace skipping. -/
def miniSkipWs (l : List Char) : List Char :=
  l.dropWhile (fun c => c == ' ' || c == '\t' || c == '\n' || c == '\r')

/-- Scan a JSON string body up to the closing quote (escape-free fragment). -/
def miniStrScan : List Char → Option (List Char × List Char)
  | [] => none
  | c :: r =>
    if c == '"' then some ([], r)
    else
      match miniStrScan r with
      | some (s, rest) => some (c :: s, rest)
      | none => none

/-- The leading digits and the remainder. -/
def miniDigits (l : List Char) : List Char × List Char :=
  (l.takeWhile Char.isDigit, l.dropWhile Char.isDigit)

/-- Digits to a natural number. -/
def miniNat (ds : List Char) : Nat :=
  ds.foldl (fun acc c => acc * 10 + (c.toNat - 48)) 0

/-- One scalar JSON value and the rest of the input. -/
def miniJsonVal (l : List Char) : Option (JVal × List Char) :=
  match miniSkipWs l with
  | 'n' :: 'u' :: 'l' :: 'l' :: r => some (.jnull, r)
  | 't' :: 'r' :: 'u' :: 'e' :: r => some (.bool true, r)
  | 'f' :: 'a' :: 'l' :: 's' :: 'e' :: r => some (.bool false, r)
  | '"' :: r =>
    match miniStrScan r with
    | some (s, rest) => some (.str (String.mk s), rest)
    | none => none
  | '-' :: r =>
    match miniDigits r with
    | ([], _) => none
    | (ds, rest) => some (.num (-(miniNat ds : Int)), rest)
  | l2 =>
    match miniDigits l2 with
    | ([], _) => none
    | (ds, rest) => some (.num (miniNat ds), rest)

/-- The scalar fragment of `JSON.parse`: one value, then only whitespace. -/
def miniJsonParse (s : String) : Except String JVal :=
  match miniJsonVal s.data with
  | some (v, rest) =>
    if (miniSkipWs rest).isEmpty then .ok v
    else .error "Unexpected token in JSON"
  | none => .error "Unexpected token in JSON"

/-- The scalar fragment of `JSON.stringify`: `undefined` yields no string;
composite serialization is not needed by any theorem and yields none here. -/
def miniJsonStringify : JVal → Option String
  | .undefined => none
  | .jnull => some "null"
  | .bool true => some "true"
  | .bool false => some "false"
  | .num n => some (toString n)
  | .str s => some ("\"" ++ s ++ "\"")
  | .arr _ => none
  | .obj _ => none

/-- A baseline environment: every decoder fails or returns an empty object. -/
def env0 : Env where
  jsonParse := fun _ => .error "bad json"
  jsonStringify := fun _ => none
  xmlDec := fun _ => .error "bad xml"
  csvDec := fun _ => .error "bad csv"
  qsDec := fun _ => .obj []
  urlDec := fun _ => .obj []
  formDec := fun _ => .error "bad form"
  formParseP := fun _ => .error "bad form"

/-- An environment whose XML decoder succeeds with a truthy object while the
JSON decoder fails (for the ordering witnesses). -/
def env1 : Env :=
  { env0 with xmlDec := fun _ => .ok (.obj [("a", .jnull)]) }

/-- The environment with the scalar JSON codec. -/
def envJ : Env :=
  { env0 with jsonParse := miniJsonParse, jsonStringify := miniJsonStringify }

/-- The environment for the request evaluation: the URL decoder and the
query-string decoder behave as `url.parse("/x?arg=1", true)` and
`qs.parse("arg=1")` do on the one input the evaluation reads. -/
def envR : Env :=
  { env0 with
    urlDec := fun s =>
      if s == "/x?arg=1" then .obj [("search", .str "?arg=1")] else .obj []
    qsDec := fun s =>
      if s == "arg=1" then .obj [("arg", .str "1")] else .obj [] }

/-- A GET request for `/x?arg=1` with no body and no `content-type` header. -/
def reqGet : Req where
  isMessage := true
  method := some "GET"
  reqUrl := "/x?arg=1"
  contentTypeHdr := none
  body := ""

/-! ## Lemmas: characters, splitting, trimming -/

theorem charOfNat_toNat {n : Nat} (h : n < 55296) : (Char.ofNat n).toNat = n := by
  have hv : n.isValidChar := Or.inl h
  rw [Char.ofNat, dif_pos hv]
  rfl

theorem lowerChar_idem (c : Char) : lowerChar (lowerChar c) = lowerChar c := by
  unfold lowerChar
  by_cases h : 65 ≤ c.toNat ∧ c.toNat ≤ 90
  · rw [if_pos h]
    have ht : (Char.ofNat (c.toNat + 32)).toNat = c.toNat + 32 :=
      charOfNat_toNat (by omega)
    rw [if_neg (by omega)]
  · rw [if_neg h, if_neg h]

theorem lowerChar_eq_low {c x : Char} (hc : c.toNat < 97) (h : lowerChar x = c) :
    x = c := by
  unfold lowerChar at h
  by_cases hx : 65 ≤ x.toNat ∧ x.toNat ≤ 90
  · rw [if_pos hx] at h
    have ht : (Char.ofNat (x.toNat + 32)).toNat = x.toNat + 32 :=
      charOfNat_toNat (by omega)
    rw [h] at ht
    omega
  · rwa [if_neg hx] at h

theorem chContains_iff {l : List Char} {c : Char} : chContains l c = true ↔ c ∈ l := by
  simp [chContains, List.any_eq_true, beq_iff_eq]

theorem chContains_false {l : List Char} {c : Char} :
    chContains l c = false ↔ c ∉ l := by
  rw [← Bool.not_eq_true, not_iff_not]
  exact chContains_iff

theorem jsSplit_ne_nil (c : Char) (l : List Char) : jsSplit c l ≠ [] := by
  induction l with
  | nil => simp [jsSplit]
  | cons x xs ih =>
    simp only [jsSplit]
    split
    · simp
    · split
      · simp
      · simp

theorem mem_jsSplit_not_mem {c : Char} {l s : List Char} (h : s ∈ jsSplit c l) :
    c ∉ s := by
  induction l generalizing s with
  | nil =>
    simp only [jsSplit, List.mem_singleton] at h
    simp [h]
  | cons x xs ih =>
    simp only [jsSplit] at h
    split at h
    · rcases List.mem_cons.mp h with h | h
      · simp [h]
      · exact ih h
    · rename_i hxc
      rcases hs : jsSplit c xs with _ | ⟨s0, ss⟩
      · rw [hs] at h
        simp only [List.mem_singleton] at h
        subst h
        intro hmem
        rcases List.mem_singleton.mp hmem with rfl
        simp at hxc
      · rw [hs] at h
        rcases List.mem_cons.mp h with h | h
        · subst h
          intro hmem
          rcases List.mem_cons.mp hmem with rfl | hmem
          · simp at hxc
          · exact ih (hs ▸ List.mem_cons_self s0 ss) hmem
        · exact ih (hs ▸ List.mem_cons_of_mem s0 h)

theorem mem_of_mem_jsSplit {c : Char} {l s : List Char} {a : Char}
    (h : s ∈ jsSplit c l) (ha : a ∈ s) : a ∈ l := by
  induction l generalizing s with
  | nil =>
    simp only [jsSplit, List.mem_singleton] at h
    subst h
    simp at ha
  | cons x xs ih =>
    simp only [jsSplit] at h
    split at h
    · rcases List.mem_cons.mp h with h | h
      · subst h
        simp at ha
      · exact List.mem_cons_of_mem x (ih h ha)
    · rcases hs : jsSplit c xs with _ | ⟨s0, ss⟩
      · rw [hs] at h
        simp only [List.mem_singleton] at h
        subst h
        rcases List.mem_singleton.mp ha with rfl
        exact List.mem_cons_self a xs
      · rw [hs] at h
        rcases List.mem_cons.mp h with h | h
        · subst h
          rcases List.mem_cons.mp ha with rfl | ha
          · exact List.mem_cons_self a xs
          · exact List.mem_cons_of_mem x
              (ih (hs ▸ List.mem_cons_self s0 ss) ha)
        · exact List.mem_cons_of_mem x
            (ih (hs ▸ List.mem_cons_of_mem s0 h) ha)

theorem jsSplit_of_not_mem {c : Char} {l : List Char} (h : c ∉ l) :
    jsSplit c l = [l] := by
  induction l with
  | nil => rfl
  | cons x xs ih =>
    have hx : (x == c) = false := by
      simp only [beq_eq_false_iff_ne]
      rintro rfl
      exact h (List.mem_cons_self x xs)
    have hxs : c ∉ xs := fun hm => h (List.mem_cons_of_mem x hm)
    simp only [jsSplit, hx, ih hxs]
    simp

theorem two_le_length_jsSplit {c : Char} {l : List Char} (h : c ∈ l) :
    2 ≤ (jsSplit c l).length := by
  induction l with
  | nil => simp at h
  | cons x xs ih =>
    simp only [jsSplit]
    split
    · have := jsSplit_ne_nil c xs
      have : 0 < (jsSplit c xs).length := List.length_pos.mpr this
      simp only [List.length_cons]
      omega
    · rename_i hxc
      have hxs : c ∈ xs := by
        rcases List.mem_cons.mp h with rfl | hm
        · simp at hxc
        · exact hm
      rcases hs : jsSplit c xs with _ | ⟨s0, ss⟩
      · exact absurd hs (jsSplit_ne_nil c xs)
      · have := ih hxs
        rw [hs] at this
        simpa using this

theorem headD_mem {α : Type} {l : List α} (d : α) (h : l ≠ []) : l.headD d ∈ l := by
  cases l with
  | nil => exact absurd rfl h
  | cons x xs => exact List.mem_cons_self x xs

theorem getD_mem {α : Type} {l : List α} {i : Nat} (d : α) (h : i < l.length) :
    l.getD i d ∈ l := by
  induction l generalizing i with
  | nil => simp at h
  | cons x xs ih =>
    cases i with
    | zero => exact List.mem_cons_self x xs
    | succ n =>
      simp only [List.getD_cons_succ]
      exact List.mem_cons_of_mem x (ih (by simpa using h))

theorem sepPart_subset {c : Char} {l : List Char} {a : Char}
    (h : a ∈ sepPart c l) : a ∈ l := by
  unfold sepPart at h
  split at h
  · rename_i hc
    have hlen := two_le_length_jsSplit (chContains_iff.mp hc)
    exact mem_of_mem_jsSplit (getD_mem [] (by omega)) h
  · exact h

theorem sepPart_not_mem (c : Char) (l : List Char) : c ∉ sepPart c l := by
  unfold sepPart
  split
  · rename_i hc
    have hlen := two_le_length_jsSplit (chContains_iff.mp hc)
    exact mem_jsSplit_not_mem (getD_mem [] (by omega))
  · rename_i hc
    exact chContains_false.mp (Bool.not_eq_true _ ▸ hc)

theorem sepPart_of_not_mem {c : Char} {l : List Char} (h : c ∉ l) :
    sepPart c l = l := by
  unfold sepPart
  rw [if_neg]
  simp only [chContains_false.mpr h]
  simp

theorem dropWhile_head_not {α : Type} {p : α → Bool} {l : List α} {a : α}
    (h : (l.dropWhile p).head? = some a) : p a = false := by
  induction l with
  | nil => simp [List.dropWhile] at h
  | cons x xs ih =>
    simp only [List.dropWhile] at h
    rcases hp : p x with _ | _
    · rw [hp] at h
      simp only [List.head?_cons, Option.some.injEq] at h
      subst h
      exact hp
    · rw [hp] at h
      exact ih h

theorem dropWhile_eq_self_of_head {α : Type} {p : α → Bool} {l : List α}
    (h : ∀ a, l.head? = some a → p a = false) : l.dropWhile p = l := by
  cases l with
  | nil => rfl
  | cons x xs => simp [List.dropWhile, h x rfl]

theorem dropWhile_dropWhile {α : Type} (p : α → Bool) (l : List α) :
    (l.dropWhile p).dropWhile p = l.dropWhile p :=
  dropWhile_eq_self_of_head fun _ ha => dropWhile_head_not ha

theorem getLast?_dropWhile {α : Type} {p : α → Bool} {l : List α}
    (h : l.dropWhile p ≠ []) : (l.dropWhile p).getLast? = l.getLast? := by
  induction l with
  | nil => simp at h
  | cons x xs ih =>
    rcases hp : p x with _ | _
    · simp [List.dropWhile, hp]
    · simp only [List.dropWhile, hp] at h ⊢
      have hxs : xs ≠ [] := by
        rintro rfl
        simp [List.dropWhile] at h
      rw [ih h]
      cases xs with
      | nil => exact absurd rfl hxs
      | cons y ys => simp [List.getLast?_cons_cons]

theorem mem_jsTrim {a : Char} {l : List Char} (h : a ∈ jsTrim l) : a ∈ l := by
  unfold jsTrim at h
  rw [List.mem_reverse] at h
  have h1 := (List.dropWhile_sublist jsWs).mem h
  rw [List.mem_reverse] at h1
  exact (List.dropWhile_sublist jsWs).mem h1

theorem jsTrim_idem (l : List Char) : jsTrim (jsTrim l) = jsTrim l := by
  unfold jsTrim
  have h1 : (((l.dropWhile jsWs).reverse.dropWhile jsWs).reverse).dropWhile jsWs
      = ((l.dropWhile jsWs).reverse.dropWhile jsWs).reverse := by
    apply dropWhile_eq_self_of_head
    intro a ha
    rw [List.head?_reverse] at ha
    rcases hB : (l.dropWhile jsWs).reverse.dropWhile jsWs with _ | ⟨y, ys⟩
    · rw [hB] at ha
      simp at ha
    · have hBne : (l.dropWhile jsWs).reverse.dropWhile jsWs ≠ [] := by
        rw [hB]
        simp
      rw [getLast?_dropWhile hBne, List.getLast?_reverse] at ha
      exact dropWhile_head_not ha
  rw [h1, List.reverse_reverse, dropWhile_dropWhile]

/-! ## The normalizer's output is a fixed point -/

theorem contentTypeL_fix (l : List Char) :
    contentTypeL (contentTypeL l) = contentTypeL l := by
  have hTdef : contentTypeL l
      = jsTrim (sepPart '+' (sepPart '/' (((jsSplit ';' l).headD []).map lowerChar))) := rfl
  have hTsub : ∀ a ∈ contentTypeL l, a ∈ ((jsSplit ';' l).headD []).map lowerChar := by
    intro a ha
    rw [hTdef] at ha
    exact sepPart_subset (sepPart_subset (mem_jsTrim ha))
  have hTlower : ∀ a ∈ contentTypeL l, lowerChar a = a := by
    intro a ha
    rcases List.mem_map.mp (hTsub a ha) with ⟨b, _, hb⟩
    rw [← hb]
    exact lowerChar_idem b
  have hTsemi : ';' ∉ contentTypeL l := by
    intro hsemi
    rcases List.mem_map.mp (hTsub _ hsemi) with ⟨b, hbmem, hb⟩
    have hb59 : b = ';' := lowerChar_eq_low (by decide) hb
    subst hb59
    exact mem_jsSplit_not_mem (headD_mem [] (jsSplit_ne_nil ';' l)) hbmem
  have hTslash : '/' ∉ contentTypeL l := by
    intro hs
    rw [hTdef] at hs
    exact sepPart_not_mem '/' _ (sepPart_subset (mem_jsTrim hs))
  have hTplus : '+' ∉ contentTypeL l := by
    intro hs
    rw [hTdef] at hs
    exact sepPart_not_mem '+' _ (mem_jsTrim hs)
  have hTtrim : jsTrim (contentTypeL l) = contentTypeL l := by
    rw [hTdef]
    exact jsTrim_idem _
  have h1 : jsSplit ';' (contentTypeL l) = [contentTypeL l] := jsSplit_of_not_mem hTsemi
  have h2 : (contentTypeL l).map lowerChar = contentTypeL l := by
    have := List.map_congr_left (g := id) (fun a ha => hTlower a ha)
    rw [this, List.map_id]
  show jsTrim (sepPart '+' (sepPart '/'
      (((jsSplit ';' (contentTypeL l)).headD []).map lowerChar))) = contentTypeL l
  rw [h1]
  show jsTrim (sepPart '+' (sepPart '/' ((contentTypeL l).map lowerChar))) = _
  rw [h2, sepPart_of_not_mem hTslash, sepPart_of_not_mem hTplus, hTtrim]

/-- Shared idempotence of the normalizer on strings (`String.mk t` has `t` as
its data, and the `"unknown"` fallback is itself a fixed point). -/
theorem contentType_contentType (s : String) :
    contentType (contentType s) = contentType s := by
  unfold contentType
  by_cases he : (contentTypeL s.data).isEmpty = true
  · rw [if_pos he]
    decide
  · rw [if_neg he]
    have hfix : contentTypeL (String.mk (contentTypeL s.data)).data
        = contentTypeL s.data := by
      have hdata : (String.mk (contentTypeL s.data)).data = contentTypeL s.data := rfl
      rw [hdata, contentTypeL_fix]
    rw [hfix, if_neg he]

/-! ## The split indexing rewritten: first segment and second segment -/

theorem jsSplit_headD_eq_takeWhile (c : Char) (l : List Char) :
    (jsSplit c l).headD [] = l.takeWhile (fun a => !(a == c)) := by
  induction l with
  | nil => rfl
  | cons x xs ih =>
    simp only [jsSplit]
    rcases hx : x == c with _ | _
    · simp only [Bool.false_eq_true, if_false]
      rcases hs : jsSplit c xs with _ | ⟨s0, ss⟩
      · exact absurd hs (jsSplit_ne_nil c xs)
      · rw [hs] at ih
        simp only [List.headD_cons] at ih ⊢
        rw [List.takeWhile_cons, hx]
        simp only [Bool.not_false, if_pos]
        rw [← ih]
    · simp only [if_pos rfl, List.headD_cons]
      rw [List.takeWhile_cons, hx]
      simp

theorem jsSplit_getD_one {c : Char} {l : List Char} (h : c ∈ l) :
    (jsSplit c l).getD 1 [] = afterFirst c l := by
  induction l with
  | nil => simp at h
  | cons x xs ih =>
    simp only [jsSplit]
    rcases hx : x == c with _ | _
    · have hxs : c ∈ xs := by
        rcases List.mem_cons.mp h with rfl | hm
        · simp at hx
        · exact hm
      rcases hs : jsSplit c xs with _ | ⟨s0, ss⟩
      · exact absurd hs (jsSplit_ne_nil c xs)
      · simp only [Bool.false_eq_true, if_false]
        have step : ((x :: s0) :: ss).getD 1 [] = (s0 :: ss).getD 1 [] := rfl
        rw [step, ← hs, ih hxs]
        unfold afterFirst
        rw [List.dropWhile_cons]
        simp [hx]
    · rw [if_pos rfl]
      have step : (([] : List Char) :: jsSplit c xs).getD 1 []
          = (jsSplit c xs).headD [] := by
        cases hs : jsSplit c xs with
        | nil => exact absurd hs (jsSplit_ne_nil c xs)
        | cons s0 ss => rfl
      rw [step, jsSplit_headD_eq_takeWhile]
      unfold afterFirst
      rw [List.dropWhile_cons]
      simp only [hx, Bool.not_true, Bool.false_eq_true, if_false, List.drop_succ_cons,
        List.drop_zero]

theorem sepPart_eq_sepFirst (c : Char) (l : List Char) :
    sepPart c l = sepFirst c l := by
  unfold sepPart sepFirst
  by_cases hc : chContains l c = true
  · rw [if_pos hc, if_pos hc, jsSplit_getD_one (chContains_iff.mp hc)]
  · rw [if_neg hc, if_neg hc]

theorem takeWhile_eq_headD_of_jsSplit (l : List Char) :
    l.takeWhile (fun a => !(a == ';')) = (jsSplit ';' l).headD [] :=
  (jsSplit_headD_eq_takeWhile ';' l).symm

/-! ## The dispatcher characterized: normalize, filter, then first match -/

theorem guessGo_spec (env : Env) (data : String) :
    ∀ (fuel : Nat) (order : List String), order.length ≤ fuel →
      guessGo env data fuel order
        = specFirstSuccess env data ((order.map contentType).filter expOwn) := by
  intro fuel
  induction fuel with
  | zero =>
    intro order hle
    have : order = [] := List.eq_nil_of_length_eq_zero (Nat.le_zero.mp hle)
    subst this
    rfl
  | succ n ih =>
    intro order hle
    rcases hf : (order.map contentType).filter expOwn with _ | ⟨t, rest⟩
    · simp [guessGo, hf, specFirstSuccess]
    · simp only [guessGo, hf]
      cases htry : tryTag env t data with
      | ok r => simp [specFirstSuccess, htry]
      | error e =>
        simp only [specFirstSuccess, htry]
        have hmem : ∀ x ∈ rest, x ∈ (order.map contentType).filter expOwn := by
          intro x hx
          rw [hf]
          exact List.mem_cons_of_mem t hx
        have hfix : ∀ x ∈ rest, contentType x = x := by
          intro x hx
          rcases List.mem_map.mp (List.mem_filter.mp (hmem x hx)).1 with ⟨y, _, hy⟩
          rw [← hy, contentType_contentType]
        have hown : ∀ x ∈ rest, expOwn x = true := fun x hx =>
          (List.mem_filter.mp (hmem x hx)).2
        have hfilter : (rest.map contentType).filter expOwn = rest := by
          have hmap : rest.map contentType = rest.map id := List.map_congr_left hfix
          rw [hmap, List.map_id, List.filter_eq_self.mpr hown]
        have hlen : rest.length ≤ n := by
          have h1 : ((order.map contentType).filter expOwn).length
              ≤ (order.map contentType).length := List.length_filter_le _ _
          rw [hf, List.length_map] at h1
          simp only [List.length_cons] at h1
          omega
        rw [ih rest hlen, hfilter]

theorem guessTypeGo_spec (env : Env) (data : String) :
    ∀ (fuel : Nat) (order : List String), order.length ≤ fuel →
      guessTypeGo env data fuel order
        = specFirstTag env data ((order.map contentType).filter expOwn) := by
  intro fuel
  induction fuel with
  | zero =>
    intro order hle
    have : order = [] := List.eq_nil_of_length_eq_zero (Nat.le_zero.mp hle)
    subst this
    rfl
  | succ n ih =>
    intro order hle
    rcases hf : (order.map contentType).filter expOwn with _ | ⟨t, rest⟩
    · simp [guessTypeGo, hf, specFirstTag]
    · simp only [guessTypeGo, hf]
      cases htry : tryTag env t data with
      | ok r => simp [specFirstTag, htry]
      | error e =>
        simp only [specFirstTag, htry]
        have hmem : ∀ x ∈ rest, x ∈ (order.map contentType).filter expOwn := by
          intro x hx
          rw [hf]
          exact List.mem_cons_of_mem t hx
        have hfix : ∀ x ∈ rest, contentType x = x := by
          intro x hx
          rcases List.mem_map.mp (List.mem_filter.mp (hmem x hx)).1 with ⟨y, _, hy⟩
          rw [← hy, contentType_contentType]
        have hown : ∀ x ∈ rest, expOwn x = true := fun x hx =>
          (List.mem_filter.mp (hmem x hx)).2
        have hfilter : (rest.map contentType).filter expOwn = rest := by
          have hmap : rest.map contentType = rest.map id := List.map_congr_left hfix
          rw [hmap, List.map_id, List.filter_eq_self.mpr hown]
        have hlen : rest.length ≤ n := by
          have h1 : ((order.map contentType).filter expOwn).length
              ≤ (order.map contentType).length := List.length_filter_le _ _
          rw [hf, List.length_map] at h1
          simp only [List.length_cons] at h1
          omega
        rw [ih rest hlen, hfilter]

theorem specFirstSuccess_append (env : Env) (data : String)
    {pre post : List String} {t : String} {r : JVal}
    (hpre : ∀ x ∈ pre, (tryTag env x data).isOk = false)
    (ht : tryTag env t data = .ok r) :
    specFirstSuccess env data (pre ++ t :: post) = .ok r := by
  induction pre with
  | nil => simp [specFirstSuccess, ht]
  | cons x xs ih =>
    have hx := hpre x (List.mem_cons_self x xs)
    cases htry : tryTag env x data with
    | ok r2 =>
      rw [htry] at hx
      simp [Except.isOk, Except.toBool] at hx
    | error e =>
      simp only [List.cons_append, specFirstSuccess, htry]
      exact ih fun y hy => hpre y (List.mem_cons_of_mem x hy)

theorem specFirstTag_append (env : Env) (data : String)
    {pre post : List String} {t : String} {r : JVal}
    (hpre : ∀ x ∈ pre, (tryTag env x data).isOk = false)
    (ht : tryTag env t data = .ok r) :
    specFirstTag env data (pre ++ t :: post) = .ok (.str t) := by
  induction pre with
  | nil => simp [specFirstTag, ht]
  | cons x xs ih =>
    have hx := hpre x (List.mem_cons_self x xs)
    cases htry : tryTag env x data with
    | ok r2 =>
      rw [htry] at hx
      simp [Except.isOk, Except.toBool] at hx
    | error e =>
      simp only [List.cons_append, specFirstTag, htry]
      exact ih fun y hy => hpre y (List.mem_cons_of_mem x hy)

/-! ## Passthrough lemmas for the format parsers -/

theorem xml_nonstr (env : Env) {v : JVal} (h : v.isStr = false) :
    xml env v = .ok v := by
  cases v
  case str s => simp [JVal.isStr] at h
  all_goals rfl

theorem query_of_isObj (env : Env) {v : JVal} (h : v.isObj = true) :
    query env v false = .ok v := by
  cases v
  case obj fs => rfl
  all_goals simp [JVal.isObj] at h

theorem url_of_isObj (env : Env) {v : JVal} (h : v.isObj = true) :
    url env v false = .ok v := by
  cases v
  case obj fs => rfl
  all_goals simp [JVal.isObj] at h

theorem wrapRow_isArr (v : JVal) : (wrapRow v).isArr = true := by
  cases v <;> rfl

theorem wrapRow_of_isArr {v : JVal} (h : v.isArr = true) : wrapRow v = v := by
  cases v
  case arr items => rfl
  all_goals simp [JVal.isArr] at h

theorem map_wrapRow_of_rows {rows : List JVal}
    (h : ∀ r ∈ rows, r.isArr = true) : rows.map wrapRow = rows := by
  have : rows.map wrapRow = rows.map id :=
    List.map_congr_left fun r hr => wrapRow_of_isArr (h r hr)
  rw [this, List.map_id]

/-! ## The claims -/

/-- C9: the Content-Type Normalizer is idempotent — for every string `s`,
`contentType (contentType s)` equals `contentType s`; every output (the
`"unknown"` fallback included) is already lowercase, trimmed and free of the
`;`, `/` and `+` separators, hence a fixed point. -/
theorem c9_contentType_idempotent (s : String) :
    contentType (contentType s) = contentType s :=
  contentType_contentType s

/-- C5 counterexample: the claim reads "keep only the part after the last
`/`", but on `"a/b/c"` the source's `split("/")[1]` keeps `"b"` (the segment
after the FIRST slash), while the claimed last-slash rule would keep `"c"` —
the two reference algorithms disagree at this input. -/
theorem c5_counterexample :
    contentType "a/b/c" = "b" ∧ contentTypeSpecLast "a/b/c" = "c"
      ∧ contentType "a/b/c" ≠ contentTypeSpecLast "a/b/c" := by
  refine ⟨by decide, by decide, by decide⟩

/-- C5 (amended): `contentType` follows the reference algorithm with "after
the last separator" replaced by "the segment after the first separator, up to
the next one" (JavaScript's `split(sep)[1]`): split on `;` and take the first
segment, lowercase it, take the post-first-`/` segment when a `/` occurs,
then the post-first-`+` segment when a `+` occurs, trim, and fall back to
`"unknown"` when empty; it is total, so it always returns a string. -/
theorem c5_contentType_algorithm (s : String) :
    contentType s = contentTypeAmended s := by
  have key : contentTypeL s.data
      = jsTrim (sepFirst '+' (sepFirst '/'
          ((s.data.takeWhile (fun a => !(a == ';'))).map lowerChar))) := by
    unfold contentTypeL
    rw [sepPart_eq_sepFirst, sepPart_eq_sepFirst, jsSplit_headD_eq_takeWhile]
  simp only [contentType, contentTypeAmended, key]

/-- C6: `query(null)` resolves to the empty mapping `{}`, both through the
call with the strict flag left to its default (`queryNoFlag`, the source's
`is_strict = false` default argument) and with the flag passed explicitly as
`false`. -/
theorem c6_null_query (env : Env) :
    queryNoFlag env .jnull = .ok (.obj []) ∧ query env .jnull false = .ok (.obj []) :=
  ⟨rfl, rfl⟩

/-- C8: for a string with neither comma nor newline, strict `csv` rejects
with the single-word refusal independently of the environment (the external
decoder is never consulted), while non-strict `csv` hands the string to the
external decoder and returns whatever it decides. -/
theorem c8_csv_strict_guard (env : Env) (s : String)
    (h1 : chContains s.data ',' = false) (h2 : chContains s.data '\n' = false) :
    csv env (.str s) true = .error "Refusing to parse CSV, single-word data"
    ∧ csv env (.str s) false = env.csvDec s := by
  constructor
  · simp only [csv]
    rw [h1, h2]
    rfl
  · rfl

/-- C8 witness: the guard at the concrete single word `"word"`. -/
theorem c8_witness :
    (chContains "word".data ',' = false ∧ chContains "word".data '\n' = false)
    ∧ (csv env0 (.str "word") true = .error "Refusing to parse CSV, single-word data"
      ∧ csv env0 (.str "word") false = env0.csvDec "word") :=
  ⟨⟨by decide, by decide⟩, c8_csv_strict_guard env0 "word" (by decide) (by decide)⟩

/-- C10: `json(undefined)` rejects — `JSON.stringify(undefined)` yields no
string, so the decoder is run on the text `"undefined"` and fails — while
`xml`, `query` and `url` resolve the same non-string input unchanged. -/
theorem c10_json_undefined (env : Env) (e : String)
    (h1 : env.jsonStringify .undefined = none)
    (h2 : env.jsonParse "undefined" = .error e) :
    json env .undefined = .error e
    ∧ xml env .undefined = .ok .undefined
    ∧ query env .undefined false = .ok .undefined
    ∧ url env .undefined false = .ok .undefined := by
  refine ⟨?_, rfl, rfl, rfl⟩
  simp only [json]
  rw [h1, h2]

/-- C10 witness: the scalar JSON codec stringifies `undefined` to nothing and
fails on the text `"undefined"`. -/
theorem c10_witness :
    (envJ.jsonStringify .undefined = none
      ∧ envJ.jsonParse "undefined" = .error "Unexpected token in JSON")
    ∧ (json envJ .undefined = .error "Unexpected token in JSON"
      ∧ xml envJ .undefined = .ok .undefined
      ∧ query envJ .undefined false = .ok .undefined
      ∧ url envJ .undefined false = .ok .undefined) :=
  ⟨⟨rfl, rfl⟩, c10_json_undefined envJ "Unexpected token in JSON" rfl rfl⟩

/-- C1 counterexample: on a nonempty string with the empty candidate order,
the async revision's `guessType` REJECTS with "Unable to parse" (it does not
resolve `"unknown"`), exactly as `guess` does — the claimed asymmetry fails
on this revision. -/
theorem c1_counterexample :
    guessType env0 (.str "#not parseable by anything") [] = .error "Unable to parse"
    ∧ guess env0 (.str "#not parseable by anything") [] = .error "Unable to parse" :=
  ⟨rfl, rfl⟩

/-- C1 (amended): for every nonempty string and every order that the known-
parser filter empties out, `guess` rejects with "Unable to parse" in both
revisions — but the asymmetry only holds in the promise revision, whose
`guessType` resolves `"unknown"`; the async revision's `guessType` rejects
with "Unable to parse" just like `guess`. -/
theorem c1_exhaustion (env : Env) (data : String) (order : List String)
    (hd : data ≠ "") (hA : (order.map contentType).filter expOwn = []) :
    guess env (.str data) order = .error "Unable to parse"
    ∧ guessType env (.str data) order = .error "Unable to parse"
    ∧ guessP env (.str data) order = .error "Unable to parse"
    ∧ guessTypeP env (.str data) order = .ok (.str "unknown") := by
  have hexp : ∀ x ∈ order, expOwn (contentType x) = false := by
    intro x hx
    have hall := List.filter_eq_nil_iff.mp hA
    have hmem : contentType x ∈ order.map contentType := List.mem_map_of_mem _ hx
    have := hall _ hmem
    exact Bool.not_eq_true _ ▸ (by simpa using this)
  have hPfilter : ∀ (os : List String), (∀ x ∈ os, x ∈ order) →
      os.filter (fun t => DEFAULT_GUESS_ORDER.contains t && expOwn (contentType t)) = [] := by
    intro os hos
    apply List.filter_eq_nil_iff.mpr
    intro a ha
    rw [hexp a (hos a ha)]
    simp
  refine ⟨?_, ?_, ?_, ?_⟩
  · simp only [guess]
    rw [if_neg hd, guessGo_spec env data order.length order le_rfl, hA]
    rfl
  · simp only [guessType]
    rw [if_neg hd, guessTypeGo_spec env data order.length order le_rfl, hA]
    rfl
  · simp only [guessP]
    rw [if_neg hd]
    cases order with
    | nil => rfl
    | cons o os =>
      simp only [guessPGo]
      rw [hPfilter (o :: os) fun x hx => hx]
  · simp only [guessTypeP]
    rw [if_neg hd]
    cases order with
    | nil => rfl
    | cons o os =>
      simp only [guessTypePGo]
      rw [hPfilter (o :: os) fun x hx => hx]

/-- C1 witness: the exhaustion behavior at the spec's own example input. -/
theorem c1_exhaustion_witness :
    (("#not parseable by anything" : String) ≠ ""
      ∧ (([] : List String).map contentType).filter expOwn = [])
    ∧ (guess env0 (.str "#not parseable by anything") [] = .error "Unable to parse"
      ∧ guessType env0 (.str "#not parseable by anything") [] = .error "Unable to parse"
      ∧ guessP env0 (.str "#not parseable by anything") [] = .error "Unable to parse"
      ∧ guessTypeP env0 (.str "#not parseable by anything") [] = .ok (.str "unknown")) :=
  ⟨⟨by decide, rfl⟩, c1_exhaustion env0 "#not parseable by anything" [] (by decide) rfl⟩

/-- C2: the async `guess` first normalizes every order entry through the
Content-Type Normalizer and only then filters by the known-parser
(`exports`) check, trying the survivors in order (`specFirstSuccess`); an
empty filtered list fails with "Unable to parse"; and a full MIME entry such
as `"application/json"` is normalized to `"json"` and that parser is tried. -/
theorem c2_normalize_then_filter (env : Env) (data : String) (order : List String)
    (hd : data ≠ "") :
    guess env (.str data) order
      = specFirstSuccess env data ((order.map contentType).filter expOwn)
    ∧ ((order.map contentType).filter expOwn = []
        → guess env (.str data) order = .error "Unable to parse")
    ∧ guess env (.str data) ("application/json" :: order)
      = specFirstSuccess env data ("json" :: (order.map contentType).filter expOwn) := by
  have h1 : guess env (.str data) order
      = specFirstSuccess env data ((order.map contentType).filter expOwn) := by
    simp only [guess]
    rw [if_neg hd]
    exact guessGo_spec env data order.length order le_rfl
  refine ⟨h1, fun hA => by rw [h1, hA]; rfl, ?_⟩
  have h3 : guess env (.str data) ("application/json" :: order)
      = specFirstSuccess env data
          ((("application/json" :: order).map contentType).filter expOwn) := by
    simp only [guess]
    rw [if_neg hd]
    exact guessGo_spec env data _ _ le_rfl
  rw [h3]
  have hct : contentType "application/json" = "json" := by decide
  have hj : expOwn "json" = true := by decide
  rw [List.map_cons, hct, List.filter_cons, hj]
  simp

/-- C2 witness: the characterization applied at a concrete nonempty string. -/
theorem c2_witness :
    (("x" : String) ≠ "")
    ∧ (guess env0 (.str "x") []
        = specFirstSuccess env0 "x" ((([] : List String).map contentType).filter expOwn)
      ∧ ((([] : List String).map contentType).filter expOwn = []
          → guess env0 (.str "x") [] = .error "Unable to parse")
      ∧ guess env0 (.str "x") ("application/json" :: [])
        = specFirstSuccess env0 "x"
            ("json" :: (([] : List String).map contentType).filter expOwn)) :=
  ⟨by decide, c2_normalize_then_filter env0 "x" [] (by decide)⟩

/-- C3: first match wins — when the normalized-and-filtered candidate list
splits as `pre ++ t :: post` with every candidate of `pre` failing its strict
parse and `t` succeeding with result `r`, `guess` resolves exactly `r` and
`guessType` resolves exactly the tag `t`, whatever the candidates in `post`
would do (they are never consulted). -/
theorem c3_first_match_wins (env : Env) (data : String)
    (order pre post : List String) (t : String) (r : JVal) (hd : data ≠ "")
    (hsplit : (order.map contentType).filter expOwn = pre ++ t :: post)
    (hpre : ∀ x ∈ pre, (tryTag env x data).isOk = false)
    (ht : tryTag env t data = .ok r) :
    guess env (.str data) order = .ok r
    ∧ guessType env (.str data) order = .ok (.str t) := by
  constructor
  · simp only [guess]
    rw [if_neg hd, guessGo_spec env data order.length order le_rfl, hsplit]
    exact specFirstSuccess_append env data hpre ht
  · simp only [guessType]
    rw [if_neg hd, guessTypeGo_spec env data order.length order le_rfl, hsplit]
    exact specFirstTag_append env data hpre ht

/-- C3 witness: with a failing JSON decoder and a succeeding XML decoder,
`guess` over `["text/plain", "json", "xml"]` (the first entry is filtered
out, the second fails strictly) resolves the XML result and `guessType`
resolves `"xml"`. -/
theorem c3_witness :
    ((("d" : String) ≠ "")
      ∧ ((["text/plain", "json", "xml"].map contentType).filter expOwn
          = ["json"] ++ "xml" :: [])
      ∧ (∀ x ∈ ["json"], (tryTag env1 x "d").isOk = false)
      ∧ tryTag env1 "xml" "d" = .ok (.obj [("a", .jnull)]))
    ∧ (guess env1 (.str "d") ["text/plain", "json", "xml"] = .ok (.obj [("a", .jnull)])
      ∧ guessType env1 (.str "d") ["text/plain", "json", "xml"] = .ok (.str "xml")) :=
  ⟨⟨by decide, by decide, by decide, rfl⟩,
    c3_first_match_wins env1 "d" ["text/plain", "json", "xml"] ["json"] [] "xml"
      (.obj [("a", .jnull)]) (by decide) (by decide) (by decide) rfl⟩

/-- C7 counterexample: `json` can produce the bare string `"a"` (from the
JSON text `"\"a\""`), but feeding that output back in does not return it —
the decode of the bare word `a` fails — so `P(V) = V` does not hold for every
producible `V`. -/
theorem c7_counterexample :
    json envJ (.str "\"a\"") = .ok (.str "a")
    ∧ (json envJ (.str "a")).isOk = false
    ∧ json envJ (.str "a") ≠ .ok (.str "a") :=
  ⟨rfl, rfl, fun h => Except.noConfusion h⟩

/-- C7 (amended): already-structured output fed back in passes through
unchanged for `xml`, `query`, `url` (given the documented shapes of their
external decoders: structured, object-valued results) and for `csv` (rows of
arrays); for `json` the property holds for the NON-STRING producible values,
for which the external codec round-trips (string outputs can fail, see the
counterexample). -/
theorem c7_idempotence_amended (env : Env) (v : JVal) (s : String)
    (hx : ∀ u w, env.xmlDec u = .ok w → w.isStr = false)
    (hq : ∀ u, (env.qsDec u).isObj = true)
    (hu : ∀ u, (env.urlDec u).isObj = true)
    (hc : ∀ u w, env.csvDec u = .ok w → rowArray w = true) :
    ((∃ x, xml env x = .ok v) → xml env v = .ok v)
    ∧ ((∃ x, query env x false = .ok v) → query env v false = .ok v)
    ∧ ((∃ x, url env x false = .ok v) → url env v false = .ok v)
    ∧ ((∃ x, csv env x false = .ok v) → csv env v false = .ok v)
    ∧ ((∃ x, json env x = .ok v) → v.isStr = false
        → env.jsonStringify v = some s → env.jsonParse s = .ok v
        → json env v = .ok v) := by
  refine ⟨?_, ?_, ?_, ?_, ?_⟩
  · rintro ⟨x, hxv⟩
    cases x
    case str u =>
      simp only [xml] at hxv
      cases hdec : env.xmlDec u with
      | error e => simp [hdec] at hxv
      | ok d =>
        simp only [hdec] at hxv
        by_cases htr : truthy d = true
        · rw [if_pos htr] at hxv
          injection hxv with hdv
          subst hdv
          exact xml_nonstr env (hx u d hdec)
        · rw [if_neg htr] at hxv
          cases hxv
    all_goals (injection hxv with h; subst h; rfl)
  · rintro ⟨x, hxv⟩
    cases x
    case jnull =>
      injection hxv with h
      subst h
      rfl
    case str u =>
      simp only [query, queryStr] at hxv
      by_cases hh : chContains u.data '#' = true
      · rw [if_pos hh] at hxv; cases hxv
      · rw [if_neg hh] at hxv
        simp only [Bool.false_and, Bool.false_eq_true, if_false] at hxv
        injection hxv with h
        subst h
        exact query_of_isObj env (hq _)
    all_goals (injection hxv with h; subst h; rfl)
  · rintro ⟨x, hxv⟩
    cases x
    case str u =>
      simp only [url] at hxv
      simp only [Bool.false_and, Bool.false_eq_true, if_false] at hxv
      injection hxv with h
      subst h
      exact url_of_isObj env (hu _)
    all_goals (injection hxv with h; subst h; rfl)
  · rintro ⟨x, hxv⟩
    cases x
    case arr items =>
      simp only [csv] at hxv
      injection hxv with h
      subst h
      simp only [csv]
      rw [List.map_map]
      have : (wrapRow ∘ wrapRow) = wrapRow := by
        funext i
        cases i <;> rfl
      rw [this]
    case str u =>
      simp only [csv, Bool.false_and, Bool.false_eq_true, if_false] at hxv
      have hrow := hc u v hxv
      cases v
      case arr rows =>
        simp only [rowArray, List.all_eq_true] at hrow
        simp only [csv]
        rw [map_wrapRow_of_rows hrow]
      all_goals simp [rowArray] at hrow
    case undefined => cases hxv
    case jnull => cases hxv
    case bool b => cases hxv
    case num n => cases hxv
    case obj fs => cases hxv
  · rintro ⟨x, _⟩ hstr henc hdec
    cases v
    case str s2 => simp [JVal.isStr] at hstr
    all_goals (simp only [json, henc]; exact hdec)

/-- C7 witness: the amended idempotence at the scalar JSON environment and
the concrete value `null`, whose round-trip through the codec is immediate. -/
theorem c7_amended_witness :
    ((∀ u w, envJ.xmlDec u = .ok w → w.isStr = false)
      ∧ (∀ u, (envJ.qsDec u).isObj = true)
      ∧ (∀ u, (envJ.urlDec u).isObj = true)
      ∧ (∀ u w, envJ.csvDec u = .ok w → rowArray w = true))
    ∧ (((∃ x, xml envJ x = .ok .jnull) → xml envJ .jnull = .ok .jnull)
      ∧ ((∃ x, query envJ x false = .ok .jnull) → query envJ .jnull false = .ok .jnull)
      ∧ ((∃ x, url envJ x false = .ok .jnull) → url envJ .jnull false = .ok .jnull)
      ∧ ((∃ x, csv envJ x false = .ok .jnull) → csv envJ .jnull false = .ok .jnull)
      ∧ ((∃ x, json envJ x = .ok .jnull) → JVal.isStr .jnull = false
          → envJ.jsonStringify .jnull = some "null"
          → envJ.jsonParse "null" = .ok .jnull
          → json envJ .jnull = .ok .jnull)) :=
  ⟨⟨fun _ _ h => Except.noConfusion h, fun _ => rfl, fun _ => rfl,
      fun _ _ h => Except.noConfusion h⟩,
    c7_idempotence_amended envJ .jnull "null"
      (fun _ _ h => Except.noConfusion h) (fun _ => rfl) (fun _ => rfl)
      (fun _ _ h => Except.noConfusion h)⟩

/-- C4: evaluating both request adapters on a GET request for `/x?arg=1`
with an empty body — the async revision spreads the query parameters at top
level (`Object.assign(data_parsed, get)`), leaving `get` holding the parsed
(empty) body and `arg` as an extra top-level key, while the promise revision
returns the documented shape with exactly the `get` key holding the
parameters. -/
theorem c4_request_get_key :
    request envR reqGet = .ok (.obj [("get", .obj []), ("arg", .str "1")])
    ∧ requestP envR reqGet = .ok (.obj [("get", .obj [("arg", .str "1")])]) :=
  ⟨rfl, rfl⟩

end Jsite
